import Mathlib

/- Verification development for the LanguageAnalyser corpus tool.

   The definitions below are a shallow embedding of the Python sources:
   AnalyserTemplate.py (chunked ingestion), Frequency.py (word and phrase
   frequency), SpecificCollocate.py and GeneralCollocateAnalysis.py
   (collocate extraction) and PoSFrequency.py (part-of-speech transition
   counting).  Text is modelled as a list of characters, Python Counter
   objects as functions from keys to integers (the value returned by a
   Counter lookup, with absent keys reading as zero), and the byte stream
   of a raw file as the sequence of fixed-size reads the generator
   performs, each read either decoding to text or failing to decode. -/

namespace LanguageAnalyser

/-- Splits a character list at every newline, keeping every (possibly empty)
segment; the final segment is the trailing text after the last newline.
This is the line structure of a text: splitOnNl of a file lists each
newline-terminated line followed by the trailing partial line. -/
def splitOnNl : List Char → List (List Char)
  | [] => [[]]
  | c :: cs =>
    if c = '\n' then [] :: splitOnNl cs
    else
      match splitOnNl cs with
      | [] => [[c]]
      | l :: ls => (c :: l) :: ls

/-- Mirrors the call buffer.rsplit at a newline with maxsplit one in
AnalyserTemplate.generate_chunk (line 129): the text before the last
newline and the text after it, with the separator removed; none when the
buffer holds no newline, in which case the two-element unpacking in the
source raises ValueError. -/
def rsplitLast : List Char → Option (List Char × List Char)
  | [] => none
  | c :: cs =>
    match rsplitLast cs with
    | some (p, q) => some (c :: p, q)
    | none => if c = '\n' then some ([], cs) else none

/-- Shallow embedding of AnalyserTemplate.generate_chunk (lines 100-133).
The first argument is the sequence of fixed-size reads of the raw file,
each already passed through UTF-8 decoding: some r is a window that
decoded to the text r, none is a window whose decode raised and which the
bare except skips (advancing the cursor) while keeping the current
overlap.  The second argument is the carried overlap string.  The result
is the list of yielded chunks, the overlap held when the generator
stopped, and a flag that is true exactly when the generator stopped by
raising ValueError (rsplit on a buffer that holds no newline). -/
def generate_chunk :
    List (Option (List Char)) → List Char → List (List Char) × List Char × Bool
  | [], ov => ([], ov, false)
  | none :: rest, ov => generate_chunk rest ov
  | some r :: rest, ov =>
    match rsplitLast (ov ++ r) with
    | none => ([], ov ++ r, true)
    | some (buf, ov2) =>
      let t := generate_chunk rest ov2
      (buf :: t.1, t.2)

/-- Fuel-indexed helper for mkReads; the fuel only serves structural
recursion and is always given strictly larger than the file length. -/
def mkReadsGo (C : Nat) : Nat → List Char → List (List Char)
  | 0, s => [s]
  | fuel + 1, s =>
    if s.length < C then [s] else s.take C :: mkReadsGo C fuel (s.drop C)

/-- The sequence of reads performed by generate_chunk on a file with the
given content: the while loop runs while the cursor p has not passed the
end of the file (condition p less than or equal to file_size), each
iteration reading chunk_size bytes, or the remaining bytes when fewer are
left.  When the file length is an exact multiple of the chunk size this
produces a final empty read.  A zero chunk size performs the single empty
read the first loop iteration would. -/
def mkReads (C : Nat) (s : List Char) : List (List Char) :=
  match C with
  | 0 => [[]]
  | _ + 1 => mkReadsGo C (s.length + 1) s

/-- generate_chunk run on a whole raw file: the reads are the chunk_size
windows of the file content, every one of which decodes (decode failures
are modelled at the read level of generate_chunk itself). -/
def generate_chunk_file (s : List Char) (C : Nat) :
    List (List Char) × List Char × Bool :=
  generate_chunk ((mkReads C s).map some) []

/-- How a run of AnalyserTemplate.pre_process_resource ends: normally, by
the partition-count guard raising ValueError after removing the
pre-processed folder, or by the ValueError escaping generate_chunk. -/
inductive IngestOutcome where
  | ok : IngestOutcome
  | tooMany : IngestOutcome
  | valueCrash : IngestOutcome
deriving DecidableEq

/-- Observable outcome of an ingestion run: how it ended, how many
partition files had been written when it ended, and how many partition
files remain on disk afterwards (zero after the rmtree rollback). -/
structure IngestResult where
  outcome : IngestOutcome
  written : Nat
  remaining : Nat
deriving DecidableEq

/-- Shallow embedding of the per-file loop of
AnalyserTemplate.pre_process_resource (lines 83-97) over the list of raw
file contents.  The guard file_size / chunk_size greater than 500 is exact
rational arithmetic, modelled as 500 * C less than the length; when it
fires the source calls rmtree on the pre-processed folder (remaining
becomes zero) and raises ValueError.  Otherwise the file is chunked; every
chunk yielded by generate_chunk is handed to pre_process_chunk, which
writes one partition file per chunk; if the generator stops by raising,
the ValueError propagates out of the pool loop and ends the run with the
already-written partitions left in place. -/
def pre_process_loop (C : Nat) : List (List Char) → Nat → IngestResult
  | [], w => ⟨.ok, w, w⟩
  | f :: rest, w =>
    if 500 * C < f.length then ⟨.tooMany, w, 0⟩
    else
      let g := generate_chunk_file f C
      let w2 := w + g.1.length
      if g.2.2 then ⟨.valueCrash, w2, w2⟩
      else pre_process_loop C rest w2

/-- AnalyserTemplate.pre_process_resource on a corpus given as the list of
raw file contents, starting with no partition files written. -/
def pre_process_resource (C : Nat) (files : List (List Char)) : IngestResult :=
  pre_process_loop C files 0

/-- The slot scan of AnalyserTemplate.pre_process_chunk (lines 146-151):
starting at index i with the given amount of loop iterations left, return
the first index whose partition file does not yet exist, or none when the
loop completes without finding a free slot (in which case the source
writes nothing and returns normally). -/
def slot_scan (occupied : Nat → Bool) : Nat → Nat → Option Nat
  | _, 0 => none
  | i, fuel + 1 => if occupied i then slot_scan occupied (i + 1) fuel else some i

/-- The partition slot chosen by one call of pre_process_chunk: the loop
for i in range of 1000 breaks at the first slot whose file does not
exist. -/
def pre_process_chunk_slot (occupied : Nat → Bool) : Option Nat :=
  slot_scan occupied 0 1000

/-- Python Counter addition (the plus operator used by the merge loops in
Frequency.execute line 40 and SpecificCollocate.execute line 54): counts
are added pointwise and only strictly positive results are kept. -/
def counterAdd (f g : String → Int) : String → Int :=
  fun k => if 0 < f k + g k then f k + g k else 0

/-- The empty Counter that Frequency.execute initialises master_count
with. -/
def counterZero : String → Int := fun _ => 0

/-- A counter all of whose lookups are non-negative; every Counter built
by the counting loops satisfies this. -/
def NonNegC (f : String → Int) : Prop := ∀ k, 0 ≤ f k

/-- The sequential merge of Frequency.execute lines 36-40: starting from
the empty Counter, add each partial count in turn. -/
def mergeCounts (counts : List (String → Int)) : String → Int :=
  counts.foldl counterAdd counterZero

/-- Frequency.reduce_count (lines 92-112): keep only the keys whose count
strictly exceeds the discard threshold, counts unchanged; every other key
reads as zero (absent). -/
def reduce_count (thresh : Int) (c : String → Int) : String → Int :=
  fun k => if thresh < c k then c k else 0

/-- The separator join used by the source when a phrase is built from a
token slice. -/
def joinSpace : List String → String
  | [] => ""
  | [s] => s
  | s :: rest => s ++ " " ++ joinSpace rest

/-- Frequency.generate_groups (lines 114-133): for i in range of the line
length minus l, join the slice from i of l tokens with spaces.  This is a
direct transcription of the source loop, including its upper bound. -/
def generate_groups (line : List String) (l : Nat) : List String :=
  (List.range (line.length - l)).map (fun i => joinSpace ((line.drop i).take l))

/-- Normalisation of one endpoint of a Python slice: a negative index
counts from the end (clamped below at zero), a non-negative index is
clamped above at the length. -/
def pyIndex (len : Nat) (i : Int) : Nat :=
  if i < 0 then ((len : Int) + i).toNat else min i.toNat len

/-- Python list slicing with integer endpoints, as used by the expression
line from i plus neg to i plus pos in both process_line methods; the
endpoints may be negative, in which case Python counts from the end of the
list. -/
def pySlice (l : List String) (a b : Int) : List String :=
  (l.take (pyIndex l.length b)).drop (pyIndex l.length a)

/-- The window extraction attempt shared by
GeneralCollocateAnalysis.process_line (lines 155-177) and
SpecificCollocate.process_line (lines 143-163) for one anchor position i
and one offset parameter n: compute neg and pos exactly as the source
does, raise IndexError (modelled as none) under the two range guards, and
otherwise join the Python slice of the line between i plus neg and i plus
pos. -/
def window_attempt (line : List String) (i : Nat) (n : Int) : Option String :=
  let neg : Int := if n < 0 then n else 1
  let pos : Int := if 0 < n then n + 1 else 0
  if (i : Int) - neg < 0 then none
  else if (i : Int) + pos > (line.length : Int) - 1 then none
  else some (joinSpace (pySlice line ((i : Int) + neg) ((i : Int) + pos)))

/-- Incrementing one cell of a nested counter table, as the source does
with count of word of phrase plus equals one. -/
def bump (c : String → String → Int) (w p : String) : String → String → Int :=
  fun w2 p2 => if w2 = w ∧ p2 = p then c w2 p2 + 1 else c w2 p2

/-- The TOTAL pseudo-key used by SpecificCollocate. -/
def keyTOTAL : String := "TOTAL"

/-- The all-zero nested counter table (every word of interest starts with
an empty Counter). -/
def tableZero : String → String → Int := fun _ _ => 0

/-- One iteration of the word loop in SpecificCollocate.process_line
(lines 135-163): if the word at position i is of interest, increment its
TOTAL count, then attempt the single window for the configured n and
count the joined phrase when the attempt does not raise. -/
def sc_line_step (line : List String) (words : List String) (n : Int)
    (c : String → String → Int) (i : Nat) (word : String) :
    String → String → Int :=
  if word ∈ words then
    let c1 := bump c word keyTOTAL
    match window_attempt line i n with
    | none => c1
    | some phrase => bump c1 word phrase
  else c

/-- SpecificCollocate.process_line (lines 117-165) on one tokenized
line. -/
def sc_process_line (c : String → String → Int) (line : List String)
    (words : List String) (n : Int) : String → String → Int :=
  (line.enum).foldl (fun acc p => sc_line_step line words n acc p.1 p.2) c

/-- One iteration of the word loop in
GeneralCollocateAnalysis.process_line (lines 150-177): if the word at
position i is of interest, attempt the window for each offset in the
fixed list and count each joined phrase whose attempt does not raise (no
TOTAL key here). -/
def gc_word_step (line : List String) (words : List String)
    (c : String → String → Int) (i : Nat) (word : String) :
    String → String → Int :=
  if word ∈ words then
    [(-2 : Int), -1, 1, 2].foldl
      (fun acc n =>
        match window_attempt line i n with
        | none => acc
        | some phrase => bump acc word phrase) c
  else c

/-- GeneralCollocateAnalysis.process_line (lines 132-179) on one tokenized
line. -/
def gc_process_line (c : String → String → Int) (line : List String)
    (words : List String) : String → String → Int :=
  (line.enum).foldl (fun acc p => gc_word_step line words acc p.1 p.2) c

/-- The merge loop of SpecificCollocate.execute (lines 52-54): for each
word of interest, merge the partial table for that word into the master
table with Counter addition; words outside the master key set are left
untouched (the partial tables hold no other keys in the source). -/
def sc_merge (words : List String) (m partTable : String → String → Int) :
    String → String → Int :=
  fun w => if w ∈ words then counterAdd (m w) (partTable w) else m w

/-- The invariant relied on by SpecificCollocate.save: for every anchor,
the TOTAL pseudo-key counts at least as much as any individual window
key. -/
def ScInv (c : String → String → Int) : Prop :=
  ∀ w p, p ≠ keyTOTAL → c w p ≤ c w keyTOTAL

/-- PoSFrequency.generate_groups (lines 107-126) after the external
tagger: given the tag sequence of a line, the pair of tags at i and i
plus one for i in range of the length minus one. -/
def pos_generate_groups (tags : List String) : List (String × String) :=
  (List.range (tags.length - 1)).map (fun i => (tags.getD i "", tags.getD (i + 1) ""))

/-- The counting loop of PoSFrequency.process (lines 80-84): count is a
dict whose keys are exactly the fixed tag vocabulary, so indexing with a
first tag outside the vocabulary raises KeyError, which is caught and
skipped; the inner Counter accepts any second tag without raising. -/
def pos_process_pairs (vocab : List String) (c : String → String → Int)
    (pairs : List (String × String)) : String → String → Int :=
  pairs.foldl
    (fun acc pr => if pr.1 ∈ vocab then bump acc pr.1 pr.2 else acc) c

/-- PoSFrequency.process on the tag sequence of one line. -/
def pos_process_line (vocab : List String) (c : String → String → Int)
    (tags : List String) : String → String → Int :=
  pos_process_pairs vocab c (pos_generate_groups tags)

/-! Concrete data used by the closed theorems below. -/

/-- The example sentence from the SpecificCollocate class docstring,
tokenized. -/
def docLine : List String :=
  ["the", "quick", "brown", "fox", "jumps", "over", "the", "lazy", "dog"]

/-- The single word of interest of the docstring example. -/
def wordsThe : List String := ["the"]

/-- The example line of Frequency.generate_groups and of spec scenario
six. -/
def foxLine : List String := ["the", "quick", "brown", "fox"]

/-- Sample counter: two occurrences of the key a. -/
def cA : String → Int := fun k => if k = "a" then 2 else 0

/-- Sample counter: three occurrences of the key a and one of b. -/
def cB : String → Int := fun k => if k = "a" then 3 else if k = "b" then 1 else 0

/-- Anchor word used in concrete collocate evaluations. -/
def wordFox : String := "fox"

/-- Anchor word of the docstring example. -/
def wordThe : String := "the"

/-- Phrase from the docstring example that the source fails to count. -/
def phraseQuickBrown : String := "quick brown"

/-- Phrase from the docstring example that the source fails to count. -/
def phraseLazyDog : String := "lazy dog"

/-- The empty phrase produced by an out-of-range backward window. -/
def phraseEmpty : String := ""

/-- Sample in-vocabulary tag. -/
def tagA : String := "A"

/-- Sample tag outside the vocabulary. -/
def tagZ : String := "Z"

/-- Sample second in-vocabulary tag. -/
def tagB : String := "B"

/-- Sample fixed tag vocabulary. -/
def vocabAB : List String := ["A", "B"]

/-- Phrase used by the specific collocate witness. -/
def phraseJumps : String := "jumps"

/-! Supporting lemmas about the chunk model. -/


theorem splitOnNl_ne_nil (s : List Char) : splitOnNl s ≠ [] := by
  induction s with
  | nil => simp [splitOnNl]
  | cons c cs ih =>
    simp only [splitOnNl]
    split
    · simp
    · cases h : splitOnNl cs with
      | nil => simp
      | cons l ls => simp

theorem splitOnNl_cons_nl (cs : List Char) :
    splitOnNl ('\n' :: cs) = [] :: splitOnNl cs := by
  simp [splitOnNl]

theorem splitOnNl_cons_other (c : Char) (cs : List Char) (hc : ¬ c = '\n') :
    splitOnNl (c :: cs) =
      match splitOnNl cs with
      | [] => [[c]]
      | l :: ls => (c :: l) :: ls := by
  simp [splitOnNl, hc]

theorem splitOnNl_append (a b : List Char) :
    splitOnNl (a ++ '\n' :: b) = splitOnNl a ++ splitOnNl b := by
  induction a with
  | nil => simp [splitOnNl]
  | cons c cs ih =>
    by_cases hc : c = '\n'
    · subst hc
      show splitOnNl ('\n' :: (cs ++ '\n' :: b)) = splitOnNl ('\n' :: cs) ++ splitOnNl b
      rw [splitOnNl_cons_nl, splitOnNl_cons_nl, ih]
      rfl
    · show splitOnNl (c :: (cs ++ '\n' :: b)) = splitOnNl (c :: cs) ++ splitOnNl b
      rw [splitOnNl_cons_other c _ hc, splitOnNl_cons_other c _ hc, ih]
      cases h : splitOnNl cs with
      | nil => exact absurd h (splitOnNl_ne_nil cs)
      | cons l ls => rfl

theorem splitOnNl_of_not_mem (s : List Char) (h : '\n' ∉ s) : splitOnNl s = [s] := by
  induction s with
  | nil => rfl
  | cons c cs ih =>
    simp only [List.mem_cons, not_or] at h
    have hc : ¬ c = '\n' := fun e => h.1 e.symm
    rw [splitOnNl_cons_other c _ hc, ih h.2]

theorem rsplitLast_none_iff (s : List Char) : rsplitLast s = none ↔ '\n' ∉ s := by
  induction s with
  | nil => simp [rsplitLast]
  | cons c cs ih =>
    cases h : rsplitLast cs with
    | some pq =>
      obtain ⟨p, q⟩ := pq
      have hmem : '\n' ∈ cs := by
        by_contra hn
        rw [ih.mpr hn] at h
        exact Option.noConfusion h
      simp [rsplitLast, h, hmem]
    | none =>
      have hnot : '\n' ∉ cs := ih.mp h
      by_cases hc : c = '\n'
      · subst hc
        simp [rsplitLast, h]
      · simp only [rsplitLast, h, if_neg hc, List.mem_cons, true_iff]
        intro hor
        rcases hor with he | hmem
        · exact hc he.symm
        · exact hnot hmem

theorem rsplitLast_some (s : List Char) :
    ∀ p q : List Char, rsplitLast s = some (p, q) →
      s = p ++ '\n' :: q ∧ '\n' ∉ q := by
  induction s with
  | nil => intro p q h; simp [rsplitLast] at h
  | cons c cs ih =>
    intro p q h
    simp only [rsplitLast] at h
    cases hr : rsplitLast cs with
    | some pq =>
      obtain ⟨p1, q1⟩ := pq
      rw [hr] at h
      simp only [Option.some.injEq, Prod.mk.injEq] at h
      obtain ⟨h1, h2⟩ := h
      obtain ⟨hs, hq⟩ := ih p1 q1 hr
      subst h2
      refine ⟨?_, hq⟩
      rw [← h1, hs]
      rfl
    | none =>
      rw [hr] at h
      by_cases hc : c = '\n'
      · rw [if_pos hc] at h
        simp only [Option.some.injEq, Prod.mk.injEq] at h
        obtain ⟨h1, h2⟩ := h
        subst hc
        refine ⟨?_, ?_⟩
        · rw [← h1, ← h2, List.nil_append]
        · rw [← h2]
          exact (rsplitLast_none_iff cs).mp hr
      · rw [if_neg hc] at h
        exact Option.noConfusion h

theorem rsplitLast_of_not_mem (s : List Char) (h : '\n' ∉ s) : rsplitLast s = none :=
  (rsplitLast_none_iff s).mpr h

theorem generate_chunk_cons_some (r : List Char) (rest : List (Option (List Char)))
    (ov buf ov2 : List Char) (hr : rsplitLast (ov ++ r) = some (buf, ov2)) :
    generate_chunk (some r :: rest) ov =
      (buf :: (generate_chunk rest ov2).1, (generate_chunk rest ov2).2) := by
  simp [generate_chunk, hr]

theorem generate_chunk_cons_none (r : List Char) (rest : List (Option (List Char)))
    (ov : List Char) (hr : rsplitLast (ov ++ r) = none) :
    generate_chunk (some r :: rest) ov = ([], ov ++ r, true) := by
  simp [generate_chunk, hr]

/-- The reconstruction invariant of generate_chunk: as long as the run does
not end by raising, the line decomposition of the pending overlap followed
by every successfully decoded read equals the concatenation of the line
decompositions of the yielded chunks, followed by the final overlap as the
trailing segment. -/
theorem generate_chunk_reconstruct (reads : List (Option (List Char))) :
    ∀ ov : List Char, '\n' ∉ ov →
      (generate_chunk reads ov).2.2 = false →
      splitOnNl (ov ++ (reads.filterMap id).flatten) =
        ((generate_chunk reads ov).1.map splitOnNl).flatten ++
          [(generate_chunk reads ov).2.1] := by
  induction reads with
  | nil =>
    intro ov hov _
    simp only [generate_chunk, List.filterMap_nil, List.flatten_nil, List.append_nil,
      List.map_nil, List.nil_append]
    exact splitOnNl_of_not_mem ov hov
  | cons x rest ih =>
    intro ov hov hnc
    cases x with
    | none =>
      simpa only [generate_chunk, List.filterMap_cons] using ih ov hov hnc
    | some r =>
      cases hr : rsplitLast (ov ++ r) with
      | none =>
        rw [generate_chunk_cons_none r rest ov hr] at hnc
        exact Bool.noConfusion hnc
      | some pq =>
        obtain ⟨buf, ov2⟩ := pq
        rw [generate_chunk_cons_some r rest ov buf ov2 hr] at hnc ⊢
        obtain ⟨hsplit, hov2⟩ := rsplitLast_some (ov ++ r) buf ov2 hr
        have ihr := ih ov2 hov2 hnc
        simp only [List.filterMap_cons, id_eq, List.flatten_cons]
        calc splitOnNl (ov ++ (r ++ (rest.filterMap id).flatten))
            = splitOnNl ((ov ++ r) ++ (rest.filterMap id).flatten) := by
              rw [List.append_assoc]
          _ = splitOnNl (buf ++ '\n' :: (ov2 ++ (rest.filterMap id).flatten)) := by
              rw [hsplit, List.append_assoc]
              rfl
          _ = splitOnNl buf ++ splitOnNl (ov2 ++ (rest.filterMap id).flatten) :=
              splitOnNl_append _ _
          _ = splitOnNl buf ++
                (((generate_chunk rest ov2).1.map splitOnNl).flatten ++
                  [(generate_chunk rest ov2).2.1]) := by rw [ihr]
          _ = ((buf :: (generate_chunk rest ov2).1).map splitOnNl).flatten ++
                [(generate_chunk rest ov2).2.1] := by
              simp [List.flatten_cons, List.append_assoc]

theorem mkReadsGo_flatten (C : Nat) (hC : 0 < C) :
    ∀ (fuel : Nat) (s : List Char), s.length < fuel →
      (mkReadsGo C fuel s).flatten = s := by
  intro fuel
  induction fuel with
  | zero => intro s hs; omega
  | succ fuel ih =>
    intro s hs
    simp only [mkReadsGo]
    by_cases h : s.length < C
    · simp [h]
    · rw [if_neg h]
      simp only [List.flatten_cons]
      rw [ih (s.drop C) (by simp only [List.length_drop]; omega)]
      exact List.take_append_drop C s

theorem mkReads_flatten (C : Nat) (s : List Char) (hC : 0 < C) :
    (mkReads C s).flatten = s := by
  match C with
  | 0 => omega
  | C + 1 =>
    simp only [mkReads]
    exact mkReadsGo_flatten (C + 1) hC (s.length + 1) s (by omega)

theorem mkReadsGo_dvd_ends_empty (C : Nat) (hC : 0 < C) :
    ∀ (fuel : Nat) (s : List Char), s.length < fuel → C ∣ s.length →
      ∃ init, mkReadsGo C fuel s = init ++ [[]] := by
  intro fuel
  induction fuel with
  | zero => intro s hs; omega
  | succ fuel ih =>
    intro s hs hdvd
    simp only [mkReadsGo]
    by_cases h : s.length < C
    · have hz : s.length = 0 := Nat.eq_zero_of_dvd_of_lt hdvd h
      have hsnil : s = [] := List.eq_nil_of_length_eq_zero hz
      subst hsnil
      exact ⟨[], by simp only [if_pos h, List.nil_append]⟩
    · rw [if_neg h]
      have hdvd2 : C ∣ (s.drop C).length := by
        simp only [List.length_drop]
        exact Nat.dvd_sub' hdvd (dvd_refl C)
      obtain ⟨init, hi⟩ := ih (s.drop C) (by simp only [List.length_drop]; omega) hdvd2
      exact ⟨s.take C :: init, by rw [hi, List.cons_append]⟩

theorem mkReads_dvd_ends_empty (C : Nat) (s : List Char) (hC : 0 < C)
    (hdvd : C ∣ s.length) : ∃ init, mkReads C s = init ++ [[]] := by
  match C with
  | 0 => omega
  | C + 1 =>
    simp only [mkReads]
    exact mkReadsGo_dvd_ends_empty (C + 1) hC (s.length + 1) s (by omega) hdvd

/-- If the read sequence ends with an empty decoded read and the running
overlap holds no newline, the generator always ends by raising. -/
theorem generate_chunk_crash_last_empty (init : List (Option (List Char))) :
    ∀ ov : List Char, '\n' ∉ ov →
      (generate_chunk (init ++ [some []]) ov).2.2 = true := by
  induction init with
  | nil =>
    intro ov hov
    have hr : rsplitLast (ov ++ ([] : List Char)) = none := by
      rw [List.append_nil]
      exact rsplitLast_of_not_mem ov hov
    rw [List.nil_append, generate_chunk_cons_none [] [] ov hr]
  | cons x rest ih =>
    intro ov hov
    cases x with
    | none =>
      simpa only [List.cons_append, generate_chunk] using ih ov hov
    | some r =>
      rw [List.cons_append]
      cases hr : rsplitLast (ov ++ r) with
      | none => rw [generate_chunk_cons_none r _ ov hr]
      | some pq =>
        obtain ⟨buf, ov2⟩ := pq
        rw [generate_chunk_cons_some r _ ov buf ov2 hr]
        exact ih ov2 (rsplitLast_some (ov ++ r) buf ov2 hr).2

theorem filterMap_id_map_some (l : List (List Char)) :
    (l.map some).filterMap id = l := by
  induction l with
  | nil => rfl
  | cons x xs ih => simp [List.filterMap_cons, ih]

/-! Claim theorems. -/

/-- C1 (amended): for every sequence of read windows, some of which may
fail to decode, on which generate_chunk does not end by raising the
missing-newline ValueError, and in particular for every raw file and
positive chunk size on which it does not raise, concatenating all yielded
chunks, with the final overlap as the trailing segment, reproduces every
complete line of the successfully decoded portion of the input exactly
once, in order, none missing, duplicated or truncated. -/
theorem chunk_reconstruction :
    (∀ reads : List (Option (List Char)),
        (generate_chunk reads []).2.2 = false →
        splitOnNl (reads.filterMap id).flatten =
          ((generate_chunk reads []).1.map splitOnNl).flatten ++
            [(generate_chunk reads []).2.1]) ∧
    ∀ (s : List Char) (C : Nat), 0 < C →
        (generate_chunk_file s C).2.2 = false →
        splitOnNl s =
          ((generate_chunk_file s C).1.map splitOnNl).flatten ++
            [(generate_chunk_file s C).2.1] := by
  constructor
  · intro reads hnc
    have h := generate_chunk_reconstruct reads [] (by simp) hnc
    simpa using h
  · intro s C hC hnc
    have h := generate_chunk_reconstruct ((mkReads C s).map some) [] (by simp) hnc
    rw [filterMap_id_map_some, mkReads_flatten C s hC] at h
    simpa [generate_chunk_file] using h

/-- Witness for chunk_reconstruction: a run with a decode failure in the
middle, and a concrete raw file with chunk size two. -/
theorem chunk_reconstruction_witness :
    splitOnNl ([some ['a', '\n'], none, some ['b', '\n']].filterMap id).flatten =
      ((generate_chunk [some ['a', '\n'], none, some ['b', '\n']] []).1.map
          splitOnNl).flatten ++
        [(generate_chunk [some ['a', '\n'], none, some ['b', '\n']] []).2.1] ∧
    splitOnNl ['a', '\n', 'b', '\n', '\n', 'c', '\n'] =
      ((generate_chunk_file ['a', '\n', 'b', '\n', '\n', 'c', '\n'] 2).1.map
          splitOnNl).flatten ++
        [(generate_chunk_file ['a', '\n', 'b', '\n', '\n', 'c', '\n'] 2).2.1] :=
  ⟨chunk_reconstruction.1 [some ['a', '\n'], none, some ['b', '\n']] (by decide),
   chunk_reconstruction.2 ['a', '\n', 'b', '\n', '\n', 'c', '\n'] 2 (by decide)
     (by decide)⟩

/-- C1 counterexample: on the raw file holding the single line of four
letters terminated by a newline, read with chunk size two, every window
decodes, yet the very first assembled buffer holds no newline, so the
generator raises before yielding anything and the line of the file is not
reproduced by the yielded chunks plus the final overlap. -/
theorem chunk_reconstruction_counterexample :
    (generate_chunk_file ['a', 'b', 'c', 'd', '\n'] 2).2.2 = true ∧
    ((generate_chunk_file ['a', 'b', 'c', 'd', '\n'] 2).1.map splitOnNl).flatten ++
        [(generate_chunk_file ['a', 'b', 'c', 'd', '\n'] 2).2.1] ≠
      splitOnNl ['a', 'b', 'c', 'd', '\n'] := by
  decide

/-- C9: the chunk generator ends by raising ValueError whenever the
assembled buffer, the carried overlap prepended to the current decoded
read, holds no newline; in particular ingestion of any raw file whose
length is an exact multiple of the chunk size always ends with this
ValueError, because the final loop iteration reads zero bytes and the
buffer is then exactly the carried overlap, which never holds a
newline. -/
theorem generate_chunk_valueerror :
    (∀ (ov r : List Char) (rest : List (Option (List Char))),
        '\n' ∉ ov ++ r → (generate_chunk (some r :: rest) ov).2.2 = true) ∧
    ∀ (s : List Char) (C : Nat), 0 < C → C ∣ s.length →
        (generate_chunk_file s C).2.2 = true := by
  constructor
  · intro ov r rest hmem
    rw [generate_chunk_cons_none r rest ov (rsplitLast_of_not_mem _ hmem)]
  · intro s C hC hdvd
    obtain ⟨init, hi⟩ := mkReads_dvd_ends_empty C s hC hdvd
    show (generate_chunk ((mkReads C s).map some) []).2.2 = true
    rw [hi, List.map_append]
    exact generate_chunk_crash_last_empty (init.map some) [] (by simp)

/-- Witness for generate_chunk_valueerror: a newline-free buffer, and a
three-byte file read with chunk size three. -/
theorem generate_chunk_valueerror_witness :
    (generate_chunk [some ['x']] ['y']).2.2 = true ∧
    (generate_chunk_file ['a', 'b', '\n'] 3).2.2 = true :=
  ⟨generate_chunk_valueerror.1 ['y'] ['x'] [] (by decide),
   generate_chunk_valueerror.2 ['a', 'b', '\n'] 3 (by decide) (by decide)⟩

/-! Counter monoid lemmas. -/

theorem counterAdd_of_nonneg (f g : String → Int) (hf : NonNegC f) (hg : NonNegC g) :
    counterAdd f g = fun k => f k + g k := by
  funext k
  simp only [counterAdd]
  have h1 := hf k
  have h2 := hg k
  split <;> omega

theorem counterAdd_nonneg (f g : String → Int) (hf : NonNegC f) (hg : NonNegC g) :
    NonNegC (counterAdd f g) := by
  intro k
  simp only [counterAdd]
  have h1 := hf k
  have h2 := hg k
  split <;> omega

theorem foldl_counterAdd_eq_sum (l : List (String → Int)) :
    ∀ acc : String → Int, NonNegC acc → (∀ f ∈ l, NonNegC f) →
      ∀ k, l.foldl counterAdd acc k = acc k + (l.map (fun f => f k)).sum := by
  induction l with
  | nil => intro acc _ _ k; simp
  | cons f fs ih =>
    intro acc hacc hl k
    have hf : NonNegC f := hl f (by simp)
    have hfs : ∀ g ∈ fs, NonNegC g := fun g hg => hl g (by simp [hg])
    simp only [List.foldl_cons, List.map_cons, List.sum_cons]
    rw [ih (counterAdd acc f) (counterAdd_nonneg acc f hacc hf) hfs k,
      counterAdd_of_nonneg acc f hacc hf]
    ring

theorem counterZero_nonneg : NonNegC counterZero := fun _ => le_refl 0

theorem mergeCounts_eq_sum (l : List (String → Int)) (hl : ∀ f ∈ l, NonNegC f)
    (k : String) : mergeCounts l k = (l.map (fun f => f k)).sum := by
  have h := foldl_counterAdd_eq_sum l counterZero counterZero_nonneg hl k
  simpa [mergeCounts, counterZero] using h

/-- C3: Python Counter addition on counters with non-negative lookups is
commutative and associative with the empty counter as identity, and the
sequential merge of Frequency.execute therefore produces the same master
count for every permutation of the list of partial counts. -/
theorem frequency_merge_monoid :
    (∀ f g : String → Int, counterAdd f g = counterAdd g f) ∧
    (∀ f g h : String → Int, NonNegC f → NonNegC g → NonNegC h →
        counterAdd (counterAdd f g) h = counterAdd f (counterAdd g h)) ∧
    (∀ f : String → Int, NonNegC f →
        counterAdd counterZero f = f ∧ counterAdd f counterZero = f) ∧
    ∀ l1 l2 : List (String → Int), (∀ f ∈ l1, NonNegC f) → List.Perm l1 l2 →
        mergeCounts l1 = mergeCounts l2 := by
  refine ⟨?_, ?_, ?_, ?_⟩
  · intro f g
    funext k
    simp only [counterAdd]
    have h := add_comm (f k) (g k)
    split <;> split <;> omega
  · intro f g h hf hg hh
    rw [counterAdd_of_nonneg f g hf hg, counterAdd_of_nonneg g h hg hh]
    rw [counterAdd_of_nonneg _ h (fun k => add_nonneg (hf k) (hg k)) hh,
      counterAdd_of_nonneg f _ hf (fun k => add_nonneg (hg k) (hh k))]
    funext k
    show (f k + g k) + h k = f k + (g k + h k)
    omega
  · intro f hf
    constructor
    · rw [counterAdd_of_nonneg counterZero f counterZero_nonneg hf]
      funext k
      simp [counterZero]
    · rw [counterAdd_of_nonneg f counterZero hf counterZero_nonneg]
      funext k
      simp [counterZero]
  · intro l1 l2 h1 hp
    have h2 : ∀ f ∈ l2, NonNegC f := fun f hf => h1 f (hp.mem_iff.mpr hf)
    funext k
    rw [mergeCounts_eq_sum l1 h1 k, mergeCounts_eq_sum l2 h2 k]
    exact (hp.map fun f => f k).sum_eq

/-- Witness for frequency_merge_monoid: merging two concrete counters in
either order gives the same master count. -/
theorem frequency_merge_monoid_witness :
    mergeCounts [cA, cB] = mergeCounts [cB, cA] :=
  frequency_merge_monoid.2.2.2 [cA, cB] [cB, cA]
    (by
      intro f hf k
      have hor : f = cA ∨ f = cB := by simpa using hf
      rcases hor with h | h
      · subst h; simp only [cA]; split <;> omega
      · subst h
        simp only [cB]
        split
        · omega
        · split <;> omega)
    (List.Perm.swap cB cA [])

theorem reduce_count_nonneg (t : Int) (c : String → Int) (hc : NonNegC c) :
    NonNegC (reduce_count t c) := by
  intro k
  simp only [reduce_count]
  have h := hc k
  split <;> omega

theorem sum_nonneg_eq_zero (l : List Int) (h : ∀ x ∈ l, 0 ≤ x) (hs : l.sum = 0) :
    ∀ x ∈ l, x = 0 := by
  induction l with
  | nil => intro x hx; cases hx
  | cons a as ih =>
    intro x hx
    have ha : 0 ≤ a := h a (by simp)
    have has : 0 ≤ as.sum := List.sum_nonneg (fun x hx => h x (by simp [hx]))
    simp only [List.sum_cons] at hs
    rcases List.mem_cons.mp hx with h0 | h0
    · subst h0; omega
    · exact ih (fun y hy => h y (List.mem_cons_of_mem a hy)) (by omega) x h0

/-- C5: the per-partition reduction keeps exactly the keys whose partial
count strictly exceeds the discard threshold, counts unchanged; merging
the reduced partials never exceeds the merge of the raw partials at any
key; and a key reading zero in the reduced merge has every per-partition
count at most the threshold. -/
theorem reduce_count_lower_bound :
    (∀ (t : Int) (c : String → Int) (k : String),
        (t < c k → reduce_count t c k = c k) ∧ (c k ≤ t → reduce_count t c k = 0)) ∧
    (∀ (parts : List (String → Int)) (t : Int) (k : String),
        (∀ c ∈ parts, NonNegC c) →
        mergeCounts (parts.map (reduce_count t)) k ≤ mergeCounts parts k) ∧
    ∀ (parts : List (String → Int)) (t : Int) (k : String),
        (∀ c ∈ parts, NonNegC c) → 0 ≤ t →
        mergeCounts (parts.map (reduce_count t)) k = 0 →
        ∀ c ∈ parts, c k ≤ t := by
  refine ⟨?_, ?_, ?_⟩
  · intro t c k
    constructor
    · intro h; simp [reduce_count, h]
    · intro h; simp only [reduce_count]; rw [if_neg (by omega)]
  · intro parts t k hparts
    have hred : ∀ c ∈ parts.map (reduce_count t), NonNegC c := by
      intro c hc
      rw [List.mem_map] at hc
      obtain ⟨d, hd, he⟩ := hc
      exact he ▸ reduce_count_nonneg t d (hparts d hd)
    rw [mergeCounts_eq_sum _ hred k, mergeCounts_eq_sum parts hparts k, List.map_map]
    apply List.sum_le_sum
    intro c hc
    have hcn := hparts c hc k
    simp only [Function.comp_apply, reduce_count]
    split <;> omega
  · intro parts t k hparts ht hz c hc
    have hred : ∀ c ∈ parts.map (reduce_count t), NonNegC c := by
      intro c hc
      rw [List.mem_map] at hc
      obtain ⟨d, hd, he⟩ := hc
      exact he ▸ reduce_count_nonneg t d (hparts d hd)
    rw [mergeCounts_eq_sum _ hred k, List.map_map] at hz
    have hmem : reduce_count t c k ∈ (parts.map (fun d => reduce_count t d k)) := by
      rw [List.mem_map]
      exact ⟨c, hc, rfl⟩
    have hzero : reduce_count t c k = 0 := by
      refine sum_nonneg_eq_zero (parts.map fun d => reduce_count t d k) ?_ ?_ _ hmem
      · intro x hx
        rw [List.mem_map] at hx
        obtain ⟨d, hd, he⟩ := hx
        rw [← he]
        exact reduce_count_nonneg t d (hparts d hd) k
      · simpa [Function.comp] using hz
    by_contra hgt
    push_neg at hgt
    have heq : reduce_count t c k = c k := by
      simp only [reduce_count]
      rw [if_pos hgt]
    rw [heq] at hzero
    have hn := hparts c hc k
    clear hz hmem hred
    omega

/-- Witness for reduce_count_lower_bound: a kept key, a dropped key, and
the merge inequality at a concrete pair of counters. -/
theorem reduce_count_lower_bound_witness :
    reduce_count 1 cA "a" = cA "a" ∧
    reduce_count 1 cB "b" = 0 ∧
    mergeCounts ([cA, cB].map (reduce_count 1)) "a" ≤ mergeCounts [cA, cB] "a" :=
  ⟨(reduce_count_lower_bound.1 1 cA "a").1 (by decide),
   (reduce_count_lower_bound.1 1 cB "b").2 (by decide),
   reduce_count_lower_bound.2.1 [cA, cB] 1 "a"
     (by
       intro f hf k
       have hor : f = cA ∨ f = cB := by simpa using hf
       rcases hor with h | h
       · subst h; simp only [cA]; split <;> omega
       · subst h
         simp only [cB]
         split
         · omega
         · split <;> omega)⟩

/-- C2 (code evaluation at the failing input): Frequency.generate_groups on
the four token line with phrase length two yields only the first two
windows; the window ending at the last token, promised by the function
docstring and by the spec scenario, is never produced, because the loop
iterates over range of the line length minus the phrase length.  With
phrase length one the last word of the line is likewise never counted. -/
theorem generate_groups_offbyone :
    generate_groups foxLine 2 = ["the quick", "quick brown"] ∧
    generate_groups foxLine 1 = ["the", "quick", "brown"] := by
  decide

/-- C4 (code evaluation at failing inputs): on the SpecificCollocate class
docstring example with the word of interest the and n equal to two, the
source counts neither quick brown nor lazy dog although both windows lie
within the line (the anchor at position zero is skipped by the backward
guard and the window ending at the last token is skipped by the forward
guard), while TOTAL is incremented twice; and with n equal to minus two an
anchor near the start of the line is counted under the empty phrase
produced by the wrapped negative Python slice, although its window is out
of range.  The same window logic is exercised by the general collocate
analysis. -/
theorem collocate_window_eval :
    sc_process_line tableZero docLine wordsThe 2 wordThe phraseQuickBrown = 0 ∧
    sc_process_line tableZero docLine wordsThe 2 wordThe phraseLazyDog = 0 ∧
    sc_process_line tableZero docLine wordsThe 2 wordThe keyTOTAL = 2 ∧
    window_attempt docLine 0 2 = none ∧
    window_attempt docLine 6 2 = none ∧
    sc_process_line tableZero ["brown", "fox"] ["fox"] (-2) wordFox phraseEmpty = 1 ∧
    gc_process_line tableZero ["brown", "fox"] ["fox"] wordFox phraseEmpty = 1 := by
  decide

/-! Lemmas for the TOTAL invariant of the specific collocate analysis. -/

theorem bump_self (c : String → String → Int) (w p : String) :
    bump c w p w p = c w p + 1 := by
  simp [bump]

theorem bump_other (c : String → String → Int) (w p w2 p2 : String)
    (h : ¬ (w2 = w ∧ p2 = p)) : bump c w p w2 p2 = c w2 p2 := by
  simp only [bump, if_neg h]

theorem bump_total_inv (c : String → String → Int) (w : String) (hc : ScInv c) :
    ScInv (bump c w keyTOTAL) := by
  intro w2 p2 hp
  have h1 := hc w2 p2 hp
  have e1 : bump c w keyTOTAL w2 p2 = c w2 p2 :=
    bump_other c w keyTOTAL w2 p2 (fun hand => hp hand.2)
  by_cases hw : w2 = w
  · have e2 : bump c w keyTOTAL w2 keyTOTAL = c w2 keyTOTAL + 1 := by
      rw [hw]
      exact bump_self c w keyTOTAL
    omega
  · have e2 : bump c w keyTOTAL w2 keyTOTAL = c w2 keyTOTAL :=
      bump_other c w keyTOTAL w2 keyTOTAL (fun hand => hw hand.1)
    omega

theorem bump_total_phrase_inv (c : String → String → Int) (w ph : String)
    (hc : ScInv c) : ScInv (bump (bump c w keyTOTAL) w ph) := by
  by_cases hph : ph = keyTOTAL
  · subst hph
    exact bump_total_inv (bump c w keyTOTAL) w (bump_total_inv c w hc)
  · intro w2 p2 hp
    have hc1 : ScInv (bump c w keyTOTAL) := bump_total_inv c w hc
    have e2 : bump (bump c w keyTOTAL) w ph w2 keyTOTAL =
        bump c w keyTOTAL w2 keyTOTAL :=
      bump_other _ _ _ _ _ (fun hand => hph hand.2.symm)
    by_cases hwp : w2 = w ∧ p2 = ph
    · obtain ⟨hw, hpp⟩ := hwp
      subst hw; subst hpp
      have e1 : bump (bump c w2 keyTOTAL) w2 p2 w2 p2 =
          bump c w2 keyTOTAL w2 p2 + 1 := bump_self _ _ _
      have e3 : bump c w2 keyTOTAL w2 p2 = c w2 p2 :=
        bump_other _ _ _ _ _ (fun hand => hp hand.2)
      have e4 : bump c w2 keyTOTAL w2 keyTOTAL = c w2 keyTOTAL + 1 :=
        bump_self _ _ _
      have h0 := hc w2 p2 hp
      omega
    · have e1 : bump (bump c w keyTOTAL) w ph w2 p2 =
          bump c w keyTOTAL w2 p2 := bump_other _ _ _ _ _ hwp
      have h0 := hc1 w2 p2 hp
      omega

theorem sc_line_step_inv (line words : List String) (n : Int)
    (c : String → String → Int) (i : Nat) (word : String) (hc : ScInv c) :
    ScInv (sc_line_step line words n c i word) := by
  simp only [sc_line_step]
  split
  · cases hw : window_attempt line i n with
    | none => exact bump_total_inv c word hc
    | some phrase => exact bump_total_phrase_inv c word phrase hc
  · exact hc

theorem sc_foldl_inv (line words : List String) (n : Int) :
    ∀ (ps : List (Nat × String)) (c : String → String → Int), ScInv c →
      ScInv (ps.foldl (fun acc p => sc_line_step line words n acc p.1 p.2) c) := by
  intro ps
  induction ps with
  | nil => intro c hc; exact hc
  | cons p ps ih =>
    intro c hc
    exact ih _ (sc_line_step_inv line words n c p.1 p.2 hc)

theorem sc_merge_inv (words : List String) (m partTable : String → String → Int)
    (hm : ScInv m) (hp : ScInv partTable) : ScInv (sc_merge words m partTable) := by
  intro w p hne
  simp only [sc_merge]
  split
  · simp only [counterAdd]
    have h1 := hm w p hne
    have h2 := hp w p hne
    split <;> split <;> omega
  · exact hm w p hne

/-- C10: the per-line counting of SpecificCollocate preserves the invariant
that, for every anchor word, the TOTAL pseudo-key counts at least as much
as every individual window key (TOTAL is incremented on every anchor
occurrence and a given window at most once per occurrence), and the
per-word Counter merge of execute preserves the same invariant, which the
report step relies on when it drops the first entry of the most common
eleven. -/
theorem specific_collocate_total_invariant :
    (∀ (c : String → String → Int) (line words : List String) (n : Int),
        ScInv c → ScInv (sc_process_line c line words n)) ∧
    ∀ (words : List String) (m partTable : String → String → Int),
        ScInv m → ScInv partTable → ScInv (sc_merge words m partTable) := by
  constructor
  · intro c line words n hc
    exact sc_foldl_inv line words n line.enum c hc
  · exact sc_merge_inv

/-- Witness for specific_collocate_total_invariant at a concrete line,
anchor and window key, starting from the all-zero table. -/
theorem specific_collocate_total_invariant_witness :
    sc_process_line tableZero ["brown", "fox", "jumps"] ["fox"] 1 wordFox phraseJumps ≤
      sc_process_line tableZero ["brown", "fox", "jumps"] ["fox"] 1 wordFox keyTOTAL :=
  specific_collocate_total_invariant.1 tableZero ["brown", "fox", "jumps"] ["fox"] 1
    (fun _ _ _ => le_refl 0) wordFox phraseJumps (by decide)

/-! Lemmas for the part-of-speech transition counting. -/

theorem pos_foldl_count (vocab : List String) :
    ∀ (pairs : List (String × String)) (c : String → String → Int) (f s : String),
      pos_process_pairs vocab c pairs f s =
        c f s + if f ∈ vocab then ((pairs.count (f, s) : Nat) : Int) else 0 := by
  intro pairs
  induction pairs with
  | nil =>
    intro c f s
    simp only [pos_process_pairs, List.foldl_nil, List.count_nil, Nat.cast_zero, ite_self,
      add_zero]
  | cons pr rest ih =>
    intro c f s
    have hstep : pos_process_pairs vocab c (pr :: rest) =
        pos_process_pairs vocab (if pr.1 ∈ vocab then bump c pr.1 pr.2 else c) rest := rfl
    rw [hstep, ih, List.count_cons]
    simp only [beq_iff_eq]
    by_cases hv : f ∈ vocab
    · rw [if_pos hv, if_pos hv]
      by_cases hpv : pr.1 ∈ vocab
      · rw [if_pos hpv]
        by_cases heq : f = pr.1 ∧ s = pr.2
        · have hpr : pr = (f, s) := by
            obtain ⟨h1, h2⟩ := heq
            rw [h1, h2]
          obtain ⟨h1, h2⟩ := heq
          have hb : bump c pr.1 pr.2 f s = c f s + 1 := by
            rw [h1, h2]
            exact bump_self c pr.1 pr.2
          rw [hb, if_pos hpr]
          push_cast
          ring
        · have hpr : ¬ pr = (f, s) := by
            intro he
            apply heq
            constructor
            · exact (congrArg Prod.fst he).symm
            · exact (congrArg Prod.snd he).symm
          rw [bump_other c pr.1 pr.2 f s heq, if_neg hpr]
          push_cast
          ring
      · rw [if_neg hpv]
        have hpr : ¬ pr = (f, s) := by
          intro he
          apply hpv
          rw [congrArg Prod.fst he]
          exact hv
        rw [if_neg hpr, Nat.add_zero]
    · rw [if_neg hv, if_neg hv]
      by_cases hpv : pr.1 ∈ vocab
      · rw [if_pos hpv]
        have hne : ¬ (f = pr.1 ∧ s = pr.2) := by
          intro hand
          apply hv
          rw [hand.1]
          exact hpv
        rw [bump_other c pr.1 pr.2 f s hne]
      · rw [if_neg hpv]

/-- C8 (amended): every adjacent tag pair whose first tag lies outside the
fixed vocabulary contributes nothing to the transition matrix (the
KeyError is caught and the pair silently skipped, never raising an
error); a pair whose first tag is in the vocabulary is counted whatever
its second tag is, so every outer key of the aggregate built from the
empty table is a vocabulary tag, but inner keys may be tags outside the
vocabulary. -/
theorem pos_transition_counting :
    (∀ (vocab : List String) (c : String → String → Int)
        (pairs : List (String × String)) (f s : String), f ∉ vocab →
        pos_process_pairs vocab c pairs f s = c f s) ∧
    ∀ (vocab : List String) (pairs : List (String × String)) (f s : String),
        pos_process_pairs vocab tableZero pairs f s =
          if f ∈ vocab then ((pairs.count (f, s) : Nat) : Int) else 0 := by
  constructor
  · intro vocab c pairs f s hf
    rw [pos_foldl_count vocab pairs c f s, if_neg hf, add_zero]
  · intro vocab pairs f s
    rw [pos_foldl_count vocab pairs tableZero f s]
    simp [tableZero]

/-- Witness for pos_transition_counting: a pair with in-vocabulary first
tag queried at an out-of-vocabulary outer key, and the counting equation
at a concrete pair. -/
theorem pos_transition_counting_witness :
    pos_process_pairs vocabAB tableZero [(tagA, tagB)] tagZ tagB =
      tableZero tagZ tagB ∧
    pos_process_pairs vocabAB tableZero [(tagA, tagB)] tagA tagB =
      (if tagA ∈ vocabAB then (([(tagA, tagB)].count (tagA, tagB) : Nat) : Int)
        else 0) :=
  ⟨pos_transition_counting.1 vocabAB tableZero [(tagA, tagB)] tagZ tagB (by decide),
   pos_transition_counting.2 vocabAB [(tagA, tagB)] tagA tagB⟩

/-- C8 counterexample: with the vocabulary of the tags A and B, the line
whose tag sequence is A then Z forms the adjacent pair of A and Z, whose
second tag lies outside the vocabulary; the pair is nevertheless counted
and the non-vocabulary key Z appears in the matrix aggregate under A with
count one. -/
theorem pos_unknown_tag_counterexample :
    pos_process_line vocabAB tableZero ["A", "Z"] tagA tagZ = 1 ∧
    tagZ ∉ vocabAB := by
  decide

/-! Lemmas for the ingestion guard and the partition slot scan. -/

theorem pre_process_loop_tooMany_remaining (C : Nat) :
    ∀ (files : List (List Char)) (w : Nat),
      (pre_process_loop C files w).outcome = IngestOutcome.tooMany →
      (pre_process_loop C files w).remaining = 0 := by
  intro files
  induction files with
  | nil => intro w h; simp [pre_process_loop] at h
  | cons f rest ih =>
    intro w h
    simp only [pre_process_loop] at h ⊢
    by_cases hg : 500 * C < f.length
    · rw [if_pos hg]
    · rw [if_neg hg] at h ⊢
      by_cases hc : (generate_chunk_file f C).2.2 = true
      · rw [if_pos hc] at h
        simp at h
      · rw [if_neg hc] at h ⊢
        exact ih _ h

/-- C6 (amended): whenever the partition-count guard fires for the raw
file about to be processed, ingestion ends with the guard ValueError and
the rmtree rollback leaves no partition output behind; and when the
offending file is the first raw file of the corpus, no partition had been
written at all when the error was raised. -/
theorem too_many_partitions_guard :
    (∀ (C : Nat) (files : List (List Char)) (w : Nat),
        (pre_process_loop C files w).outcome = IngestOutcome.tooMany →
        (pre_process_loop C files w).remaining = 0) ∧
    ∀ (C : Nat) (f : List Char) (rest : List (List Char)), 500 * C < f.length →
        pre_process_resource C (f :: rest) = ⟨IngestOutcome.tooMany, 0, 0⟩ := by
  constructor
  · exact pre_process_loop_tooMany_remaining
  · intro C f rest hg
    simp [pre_process_resource, pre_process_loop, hg]

set_option maxRecDepth 8000 in
/-- Witness for too_many_partitions_guard: a single raw file of 501 bytes
with chunk size one. -/
theorem too_many_partitions_guard_witness :
    (pre_process_loop 1 [List.replicate 501 'x'] 0).remaining = 0 ∧
    pre_process_resource 1 [List.replicate 501 'x'] = ⟨IngestOutcome.tooMany, 0, 0⟩ :=
  ⟨too_many_partitions_guard.1 1 [List.replicate 501 'x'] 0 (by decide),
   too_many_partitions_guard.2 1 (List.replicate 501 'x') [] (by decide)⟩

set_option maxRecDepth 8000 in
/-- C6 counterexample: a corpus of two raw files read with chunk size two;
the first file is ingested into four partitions, then the guard fires on
the second file, so the fatal error is raised only after partition files
have already been written (the rollback then removes them). -/
theorem too_many_partitions_counterexample :
    (pre_process_resource 2
        [['a', '\n', 'b', '\n', '\n', 'c', '\n'], List.replicate 1001 'x']).outcome =
      IngestOutcome.tooMany ∧
    (pre_process_resource 2
        [['a', '\n', 'b', '\n', '\n', 'c', '\n'], List.replicate 1001 'x']).written =
      4 := by
  decide

theorem slot_scan_some (occupied : Nat → Bool) :
    ∀ (fuel i j : Nat), slot_scan occupied i fuel = some j →
      i ≤ j ∧ j < i + fuel ∧ occupied j = false ∧
        ∀ k2, i ≤ k2 → k2 < j → occupied k2 = true := by
  intro fuel
  induction fuel with
  | zero => intro i j h; simp [slot_scan] at h
  | succ fuel ih =>
    intro i j h
    simp only [slot_scan] at h
    by_cases ho : occupied i = true
    · rw [if_pos ho] at h
      obtain ⟨h1, h2, h3, h4⟩ := ih (i + 1) j h
      refine ⟨by omega, by omega, h3, ?_⟩
      intro k2 hk1 hk2
      by_cases hke : k2 = i
      · rw [hke]; exact ho
      · exact h4 k2 (by omega) hk2
    · rw [if_neg ho] at h
      have hij : i = j := Option.some.inj h
      subst hij
      refine ⟨le_refl i, by omega, by simpa using ho, ?_⟩
      intro k2 hk1 hk2
      omega

theorem slot_scan_none (occupied : Nat → Bool) :
    ∀ (fuel i : Nat), (∀ k2, i ≤ k2 → k2 < i + fuel → occupied k2 = true) →
      slot_scan occupied i fuel = none := by
  intro fuel
  induction fuel with
  | zero => intro i _; rfl
  | succ fuel ih =>
    intro i hall
    have ho : occupied i = true := hall i (le_refl i) (by omega)
    simp only [slot_scan, if_pos ho]
    exact ih (i + 1) (fun k2 h1 h2 => hall k2 (by omega) (by omega))

/-- C7 (amended): the chunk worker writes its block to the first partition
slot index in the range zero to 999 whose file does not yet exist; when
every one of the 1000 slots is occupied, the loop simply completes without
writing and without raising any error, silently discarding the chunk. -/
theorem partition_slot_scan :
    (∀ (occupied : Nat → Bool) (j : Nat),
        pre_process_chunk_slot occupied = some j →
        j < 1000 ∧ occupied j = false ∧ ∀ k2 < j, occupied k2 = true) ∧
    ∀ occupied : Nat → Bool, (∀ k2 < 1000, occupied k2 = true) →
        pre_process_chunk_slot occupied = none := by
  constructor
  · intro occupied j h
    obtain ⟨_, h2, h3, h4⟩ := slot_scan_some occupied 1000 0 j h
    exact ⟨by omega, h3, fun k2 hk => h4 k2 (Nat.zero_le k2) hk⟩
  · intro occupied hall
    exact slot_scan_none occupied 1000 0 (fun k2 _ h2 => hall k2 (by omega))

/-- Witness for partition_slot_scan: a directory whose first three slots
are occupied, and a fully occupied directory. -/
theorem partition_slot_scan_witness :
    ((3 : Nat) < 1000 ∧ (fun i => decide (i < 3)) 3 = false ∧
      ∀ k2 < 3, (fun i => decide (i < 3)) k2 = true) ∧
    pre_process_chunk_slot (fun _ => true) = none :=
  ⟨partition_slot_scan.1 (fun i => decide (i < 3)) 3 (by decide),
   partition_slot_scan.2 (fun _ => true) (fun k2 _ => rfl)⟩

set_option maxRecDepth 8000 in
/-- C7 counterexample: when every slot in the range zero to 999 already
exists, the slot loop of pre_process_chunk completes without selecting a
slot and the function returns normally, so the chunk is silently
discarded and no fatal capacity error is raised; with only the first
three slots occupied, slot three is selected. -/
theorem partition_slot_counterexample :
    pre_process_chunk_slot (fun _ => true) = none ∧
    pre_process_chunk_slot (fun i => decide (i < 3)) = some 3 := by
  decide

end LanguageAnalyser
